import Mathlib

/-!
Verification of the PyNeon preprocessing core
(src/pyneon/preprocess/preprocess.py).

The development shallowly embeds the data model and the five public
operations of the module: crop, interpolate, window_average,
concat_streams and concat_events.

Modelling conventions:
  * a pandas DataFrame produced or consumed by the stream operations is a
    `Table`: the mandatory nanosecond timestamp column is the `ts` field,
    the derived relative-time column (name "time [s]" in the source) is the
    `time` field (`none` when the frame has no such column), and all other
    columns are `cols`;
  * a cell value is a `Val`: a rational number (machine floats and integers
    are idealised as exact rationals), a string, or the missing marker
    (NaN / pd.NA);
  * the dtype of a pandas column is the `Dtype` tag carried by each column;
  * scipy.interp1d with bounds_error=False is modelled from its documented
    behaviour: piecewise-linear (kind "linear") or nearest-neighbour with
    half-ties to the lower sample (kind "nearest"), and the default
    fill_value NaN outside the sampled range.  NaN arithmetic is modelled
    by `Option`-style propagation of the missing marker;
  * Python exceptions are `Except Err` results; the distinct constructors
    of `Err` stand for the distinct raise sites of the source.
-/

namespace PyNeon

/-- Dtype tag of a pandas column, as inspected by
`pd.api.types.is_float_dtype` in `interpolate`. -/
inductive Dtype where
  | float64
  | int64
  | categorical
  | string
deriving DecidableEq, Repr

/-- A cell value: a number (floats and integers idealised as rationals),
a string, or the missing marker (NaN / pd.NA). -/
inductive Val where
  | num (q : ℚ)
  | str (s : String)
  | missing
deriving DecidableEq, Repr

/-- Numeric view of a value; strings and the missing marker have none. -/
def Val.toQ : Val → Option ℚ
  | .num q => some q
  | _ => none

/-- A named, dtyped pandas column (the non-time columns of a frame). -/
structure Column where
  name : String
  dtype : Dtype
  values : List Val
deriving DecidableEq, Repr

/-- A stream DataFrame: the "timestamp [ns]" column, the optional
"time [s]" column, and the remaining value columns. -/
structure Table where
  ts : List ℤ
  time : Option (List ℚ)
  cols : List Column
deriving DecidableEq, Repr

/-- Well-formedness of a frame: every value column has one cell per row. -/
def Table.WF (t : Table) : Prop :=
  (∀ c ∈ t.cols, c.values.length = t.ts.length) ∧
    (∀ tv, t.time = some tv → tv.length = t.ts.length)

/-- np.diff: successive differences of a list. -/
def diffs (l : List ℤ) : List ℤ :=
  List.zipWith (fun a b => a - b) l.tail l

/-- The monotonicity test of `_check_data`: np.any(np.diff(ts) < 0). -/
def hasNegDiff (l : List ℤ) : Bool :=
  (diffs l).any (fun d => d < 0)

/-- np.sort on integer timestamps. -/
def npSort (l : List ℤ) : List ℤ :=
  l.insertionSort (· ≤ ·)

/-- Python int() applied to a float: truncation toward zero. -/
def qTrunc (q : ℚ) : ℤ :=
  if q < 0 then ⌈q⌉ else ⌊q⌋

/-- The distinct Python raise sites of the preprocessing module. -/
inductive Err where
  /-- ValueError of `_check_data`: timestamps not monotonically increasing
  (or the required time column is absent, for `crop`). -/
  | nonMonotonic
  /-- ValueError raised on malformed arguments (missing bounds in `crop`,
  fewer than two streams or events, invalid names or frequency policy). -/
  | invalidInput
  /-- IndexError from indexing position 0 of an empty timestamp array. -/
  | indexError
  /-- ValueError of window_average: new_ts must have a lower sampling
  frequency than the old data. -/
  | lowerFreqRequired
  /-- ValueError from int(np.nan) when the median spacing is undefined. -/
  | nanToInt
  /-- TypeError from taking the mean of a non-numeric column. -/
  | typeError
  /-- ValueError when a requested stream or event kind is not loaded. -/
  | missingStream
  /-- ZeroDivisionError from 1e9 / sampling_freq with zero frequency. -/
  | zeroDivision
  /-- ZeroDivisionError inside np.arange when the step is zero (the
  negative-step case is folded into this error as well; no claim
  exercises a negative resolved frequency). -/
  | zeroStep
  /-- AssertionError of the post-resampling consistency checks. -/
  | assertFail
deriving DecidableEq, Repr

/-- Decidable equality of Except results, for concrete evaluation of
the embedded operations. -/
instance {e a : Type} [DecidableEq e] [DecidableEq a] :
    DecidableEq (Except e a) := fun x y =>
  match x, y with
  | .ok u, .ok v =>
    match decEq u v with
    | isTrue h => isTrue (by rw [h])
    | isFalse h => isFalse (fun hh => h (by injection hh))
  | .error u, .error v =>
    match decEq u v with
    | isTrue h => isTrue (by rw [h])
    | isFalse h => isFalse (fun hh => h (by injection hh))
  | .ok _, .error _ => isFalse (fun hh => by injection hh)
  | .error _, .ok _ => isFalse (fun hh => by injection hh)

/-- Interpolation kinds passed to scipy.interpolate.interp1d that the
module uses ("linear" for float columns, "nearest" otherwise). -/
inductive InterpKind where
  | linear
  | nearest
deriving DecidableEq, Repr

/-- First element of a timestamp list (dummy 0 for the empty list). -/
def firstTs (l : List ℤ) : ℤ :=
  l.head?.getD 0

/-- Last element of a timestamp list (dummy 0 for the empty list). -/
def lastTs (l : List ℤ) : ℤ :=
  l.getLast?.getD 0

/-- Last element of a rational list (dummy 0 for the empty list). -/
def lastQ (l : List ℚ) : ℚ :=
  l.getLast?.getD 0

/-- Evaluation of one linear segment between (x1, y1) and (x2, y2);
NaN operands propagate, mirroring IEEE NaN arithmetic in interp1d. -/
def segEval (x1 x2 : ℚ) (y1 y2 : Val) (t : ℚ) : Val :=
  match y1.toQ, y2.toQ with
  | some a, some b => .num (a + (b - a) * (t - x1) / (x2 - x1))
  | _, _ => .missing

/-- Core of piecewise-linear interp1d: walk the strictly increasing
sample grid and evaluate the bracketing segment.  Bounds are checked by
the wrapper `linearAt`. -/
def linearCore : List ℚ → List Val → ℚ → Val
  | [_], [y], _ => y
  | x1 :: x2 :: xs, y1 :: y2 :: ys, t =>
    if t ≤ x2 then segEval x1 x2 y1 y2 t
    else linearCore (x2 :: xs) (y2 :: ys) t
  | _, _, _ => .missing

/-- interp1d(kind="linear", bounds_error=False): the documented fill
value NaN outside the sampled range, linear interpolation inside.
(scipy additionally rejects grids with fewer than two samples; the model
extends the same fill semantics to them.) -/
def linearAt (xs : List ℚ) (ys : List Val) (t : ℚ) : Val :=
  match xs with
  | [] => .missing
  | x :: _ => if t < x ∨ lastQ xs < t then .missing else linearCore xs ys t

/-- Core of nearest-neighbour interp1d: scipy places breakpoints at the
midpoints of consecutive samples and resolves a query on a midpoint to
the lower sample (np.searchsorted side="left"). -/
def nearestCore : List ℚ → List Val → ℚ → Val
  | [_], [y], _ => y
  | x1 :: x2 :: xs, y1 :: y2 :: ys, t =>
    if t ≤ (x1 + x2) / 2 then y1
    else nearestCore (x2 :: xs) (y2 :: ys) t
  | _, _, _ => .missing

/-- interp1d(kind="nearest", bounds_error=False): NaN outside the sampled
range, nearest sample inside. -/
def nearestAt (xs : List ℚ) (ys : List Val) (t : ℚ) : Val :=
  match xs with
  | [] => .missing
  | x :: _ => if t < x ∨ lastQ xs < t then .missing else nearestCore xs ys t

/-- pandas Series.astype applied to one cell (line
`new_data[col] = new_data[col].astype(data[col].dtype)` of the source).
Casting a float to an integer dtype truncates; selections cast back to a
categorical or string dtype are left unchanged; the missing marker is
kept by every cast (pandas nullable semantics). -/
def astypeVal (d : Dtype) (v : Val) : Val :=
  match v, d with
  | .num q, .float64 => .num q
  | .num q, .int64 => .num (qTrunc q)
  | .num q, _ => .num q
  | v, _ => v

/-- The integer timestamp grid viewed as rationals (interp1d promotes
the sample grid to floats). -/
def castQ (l : List ℤ) : List ℚ :=
  l.map (fun x : ℤ => (x : ℚ))

/-- Evaluation of one interp1d interpolant of the given kind on an
integer sample grid at an integer query point. -/
def interpAt (k : InterpKind) (xs : List ℤ) (ys : List Val) (t : ℤ) : Val :=
  match k with
  | .linear => linearAt (castQ xs) ys (t : ℚ)
  | .nearest => nearestAt (castQ xs) ys (t : ℚ)

/-- The per-column body of the `for col in data.columns` loop of
`interpolate`: dispatch on the dtype (float columns use float_kind, all
others other_kind), evaluate at the new timestamps, cast back to the
source dtype. -/
def interpCol (fk otherK : InterpKind) (xs : List ℤ) (newTs : List ℤ)
    (c : Column) : Column :=
  { name := c.name, dtype := c.dtype,
    values := newTs.map (fun t => astypeVal c.dtype
      (interpAt (if c.dtype = .float64 then fk else otherK) xs c.values t)) }

/-- The relative-time column `(new_ts - new_ts[0]) / 1e9`. -/
def timeOf (l : List ℤ) : List ℚ :=
  match l with
  | [] => []
  | t0 :: _ => l.map (fun t => ((t : ℚ) - (t0 : ℚ)) / 10 ^ 9)

/-- pyneon.preprocess.interpolate(new_ts, data, float_kind, other_kind).
Validates the source timestamps, sorts the new timestamps, indexes the
first new timestamp (an IndexError when there is none), and interpolates
every value column with the per-dtype policy. -/
def interpolate (newTs : List ℤ) (data : Table)
    (fk otherK : InterpKind) : Except Err Table :=
  if hasNegDiff data.ts then .error .nonMonotonic
  else
    match npSort newTs with
    | [] => .error .indexError
    | t0 :: rest =>
      .ok { ts := t0 :: rest,
            time := some (timeOf (t0 :: rest)),
            cols := data.cols.map (interpCol fk otherK data.ts (t0 :: rest)) }

/-- np.mean of integer differences (NaN, i.e. none, on the empty list). -/
def meanQ (l : List ℤ) : Option ℚ :=
  match l with
  | [] => none
  | _ => some ((l.map (fun d => (d : ℚ))).sum / l.length)

/-- np.median (NaN, i.e. none, on the empty list): middle element of the
sorted list, or the average of the two middle elements for even length. -/
def medianQ (l : List ℤ) : Option ℚ :=
  match npSort l with
  | [] => none
  | x :: xs =>
    let s := x :: xs
    let n := s.length
    if n % 2 = 1 then some ((s.getD (n / 2) 0 : ℤ) : ℚ)
    else some (((s.getD (n / 2 - 1) 0 : ℤ) + (s.getD (n / 2) 0 : ℤ)) / 2)

/-- The NumPy comparison `median < mean`: False whenever either statistic
is NaN (undefined). -/
def medLtMean : Option ℚ → Option ℚ → Bool
  | some m, some u => decide (m < u)
  | _, _ => false

/-- Resolution of the window size of `window_average`: the argument when
given, otherwise int() of the median spacing of the sorted new
timestamps (none models the ValueError of int(np.nan)). -/
def resolvedW (newTs : List ℤ) (windowSize : Option ℤ) : Option ℤ :=
  match windowSize with
  | some w => some w
  | none => (medianQ (diffs (npSort newTs))).map qTrunc

/-- One window of `window_average`: the mean of the source cells whose
timestamp lies in [t - w/2, t + w/2].  The bounds are stated over the
integers scaled by two (x is in the window iff 2t - w <= 2x <= 2t + w),
which is exactly the rational condition t - w/2 <= x <= t + w/2 of the
source (see winMean_cond_iff).  An empty window and an all-missing
window both give the missing marker (np.nan appended by the source /
pandas skipna mean of nothing). -/
def winMean (xs : List ℤ) (ys : List Val) (w : ℤ) (t : ℤ) : Val :=
  let sel := (xs.zip ys).filter
    (fun p => 2 * t - w ≤ 2 * p.1 ∧ 2 * p.1 ≤ 2 * t + w)
  match sel with
  | [] => .missing
  | _ =>
    let qs := sel.filterMap (fun p => p.2.toQ)
    match qs with
    | [] => .missing
    | _ => .num (qs.sum / qs.length)

/-- The per-column body of the `for col in data.columns` loop of
`window_average`.  pandas Series.mean raises a TypeError on categorical
and string columns; numeric columns become a plain float column of
window means (no cast back to the source dtype).  (The source raises
only when a nonempty window is actually reduced; the model rejects
non-numeric columns up front, a refinement no claim depends on.) -/
def wavgCol (xs : List ℤ) (newTs : List ℤ) (w : ℤ) (c : Column) :
    Except Err Column :=
  if c.dtype = .categorical ∨ c.dtype = .string then .error .typeError
  else .ok { name := c.name, dtype := .float64,
             values := newTs.map (winMean xs c.values w) }

/-- List.mapM specialised to Except with structural recursion, used for
loops of the source that stop at the first raised exception. -/
def mapME (f : α → Except Err β) : List α → Except Err (List β)
  | [] => .ok []
  | a :: l =>
    match f a with
    | .error e => .error e
    | .ok b =>
      match mapME f l with
      | .error e => .error e
      | .ok l2 => .ok (b :: l2)

/-- pyneon.preprocess.window_average(new_ts, data, window_size).
Validates the source, sorts the new timestamps, enforces the
downsampling precondition median(diff(new_ts)) >= mean(diff(ts)),
resolves the window size (int(np.nan) raises when the median spacing is
undefined and no window size was given), indexes the first new timestamp
and averages every value column window by window. -/
def windowAverage (newTs : List ℤ) (data : Table)
    (windowSize : Option ℤ) : Except Err Table :=
  if hasNegDiff data.ts then .error .nonMonotonic
  else
    let med := medianQ (diffs (npSort newTs))
    let mea := meanQ (diffs data.ts)
    if medLtMean med mea then .error .lowerFreqRequired
    else
      match resolvedW newTs windowSize with
      | none => .error .nanToInt
      | some w =>
        match npSort newTs with
        | [] => .error .indexError
        | t0 :: rest =>
          match mapME (wavgCol data.ts (t0 :: rest) w) data.cols with
          | .error e => .error e
          | .ok cols =>
            .ok { ts := t0 :: rest,
                  time := some (timeOf (t0 :: rest)),
                  cols := cols }

/-- Minimum of a rational list (dummy 0 on the empty list, which the
callers rule out). -/
def listMinQ : List ℚ → ℚ
  | [] => 0
  | x :: xs => xs.foldl min x

/-- Maximum of a rational list (dummy 0 on the empty list). -/
def listMaxQ : List ℚ → ℚ
  | [] => 0
  | x :: xs => xs.foldl max x

/-- Minimum of an integer list (dummy 0 on the empty list). -/
def listMinZ : List ℤ → ℤ
  | [] => 0
  | x :: xs => xs.foldl min x

/-- Maximum of an integer list (dummy 0 on the empty list). -/
def listMaxZ : List ℤ → ℤ
  | [] => 0
  | x :: xs => xs.foldl max x

/-- The subset of row indices of `crop`: positions whose key lies in
[tmin, tmax]. -/
def keptIdx (key : List ℚ) (lo hi : ℚ) : List ℕ :=
  (List.range key.length).filter (fun i =>
    lo ≤ key.getD i 0 ∧ key.getD i 0 ≤ hi)

/-- Row selection of a column by a list of row indices. -/
def selectIdx (idx : List ℕ) (vs : List α) (dflt : α) : List α :=
  idx.map (fun i => vs.getD i dflt)

/-- pyneon.preprocess.crop(data, tmin, tmax, by).  `byTime` selects the
"time [s]" column as the key (raising when it is absent), otherwise the
timestamp column is used; missing bounds default to the observed
minimum/maximum, and rows with key in [tmin, tmax] (both inclusive) are
kept.  The monotonicity test `_check_data` runs on the selected key. -/
def crop (data : Table) (tmin tmax : Option ℚ) (byTime : Bool) :
    Except Err Table :=
  if tmin = none ∧ tmax = none then .error .invalidInput
  else
    match (if byTime then data.time.map id else some (data.ts.map (fun t => (t : ℚ)))) with
    | none => .error .nonMonotonic
    | some key =>
      if (List.zipWith (fun a b => a - b) key.tail key).any (fun d => d < 0) then
        .error .nonMonotonic
      else
        let lo := tmin.getD (listMinQ key)
        let hi := tmax.getD (listMaxQ key)
        let idx := keptIdx key lo hi
        .ok { ts := selectIdx idx data.ts 0,
              time := data.time.map (fun tv => selectIdx idx tv 0),
              cols := data.cols.map (fun c =>
                { c with values := selectIdx idx c.values .missing }) }

/-- A stream object of the recording, as consumed by `concat_streams`:
its nominal sampling frequency, its observed first and last timestamps,
and its data table. -/
structure StreamObj where
  sf : ℚ
  first_ts : ℤ
  last_ts : ℤ
  data : Table
deriving DecidableEq, Repr

/-- The sampling_freq argument of `concat_streams`: "min", "max" or an
explicit numeric frequency. -/
inductive FreqPolicy where
  | minFreq
  | maxFreq
  | custom (q : ℚ)
deriving DecidableEq, Repr

/-- Resolved target sampling frequency of `concat_streams`. -/
def sfOf (streams : List StreamObj) (policy : FreqPolicy) : ℚ :=
  match policy with
  | .minFreq => listMinQ (streams.map (fun s => s.sf))
  | .maxFreq => listMaxQ (streams.map (fun s => s.sf))
  | .custom q => q

/-- Latest start timestamp over the selected streams. -/
def startOf (streams : List StreamObj) : ℤ :=
  listMaxZ (streams.map (fun s => s.first_ts))

/-- Earliest last timestamp over the selected streams. -/
def endOf (streams : List StreamObj) : ℤ :=
  listMinZ (streams.map (fun s => s.last_ts))

/-- The timeline step of `concat_streams`: int(1e9 / sf), i.e. the
truncation toward zero of 1e9 over the resolved frequency. -/
def stepOf (streams : List StreamObj) (policy : FreqPolicy) : ℤ :=
  qTrunc ((10 ^ 9 : ℚ) / sfOf streams policy)

/-- Fuel-driven loop of np.arange over integers with positive step:
emit start while start < stop. -/
def arangeAux : ℕ → ℤ → ℤ → ℕ → List ℤ
  | 0, _, _, _ => []
  | n + 1, start, stop, step =>
    if start < stop then start :: arangeAux n (start + step) stop step
    else []

/-- np.arange(start, stop, step) for a positive integer step: the values
start + i * step below stop. -/
def arange (start stop : ℤ) (step : ℕ) : List ℤ :=
  arangeAux (stop - start).toNat start stop step

/-- np.arange over integers with a nonzero step of either sign (a
negative step descends while above stop). -/
def arangeZ (start stop step : ℤ) : List ℤ :=
  if 0 < step then arange start stop step.toNat
  else if step < 0 then (arange (-start) (-stop) (-step).toNat).map (fun x => -x)
  else []

/-- Modelled from the spec: the per-stream resample operation of the
recording collaborator (NeonRecording stream objects are outside src/).
Per the external-interface contract it interpolates the stream table to
the new timestamps with the module-level `interpolate` semantics and,
only when replace-in-place is requested, replaces the stream's cached
data with the result. -/
def streamInterpolate (s : StreamObj) (newTs : List ℤ)
    (fk otherK : InterpKind) (inplace : Bool) :
    Except Err (Table × StreamObj) :=
  match interpolate newTs s.data fk otherK with
  | .error e => .error e
  | .ok t => .ok (t, if inplace then { s with data := t } else s)

/-- pyneon.preprocess.concat_streams over the already selected stream
objects (the name-resolution prologue of the source maps requested
names onto exactly such a list).  Requires at least two streams,
resolves the target frequency, builds the common timeline with
np.arange, indexes its first element (an IndexError when the overlap is
empty), resamples every stream, enforces the row-count and timestamp
assertions, and inner-joins the resampled columns. -/
def concatStreams (streams : List StreamObj) (policy : FreqPolicy)
    (fk otherK : InterpKind) (inplace : Bool) :
    Except Err (Table × List StreamObj) :=
  if streams.length ≤ 1 then .error .invalidInput
  else if sfOf streams policy = 0 then .error .zeroDivision
  else if stepOf streams policy = 0 then .error .zeroStep
  else
    match arangeZ (startOf streams) (endOf streams) (stepOf streams policy) with
    | [] => .error .indexError
    | t0 :: rest =>
      match mapME (fun s => streamInterpolate s (t0 :: rest) fk otherK inplace)
          streams with
      | .error e => .error e
      | .ok pairs =>
        if pairs.all (fun p => decide (p.1.ts = t0 :: rest)) then
          .ok ({ ts := t0 :: rest,
                 time := some (timeOf (t0 :: rest)),
                 cols := (pairs.map (fun p => p.1.cols)).flatten },
               pairs.map (fun p => p.2))
        else .error .assertFail

/-- The recording's event accessors, as consumed by `concat_events`.
Modelled from the spec: each accessor returns the stored event table of
the recording, or none when the kind was not recorded; an event table is
a plain list of named columns. -/
structure EventRec where
  blinks : Option (List Column)
  fixations : Option (List Column)
  saccades : Option (List Column)
  events : Option (List Column)
deriving DecidableEq, Repr

/-- Python str.lower as used on event names (ASCII names only). -/
def pyLower (s : String) : String :=
  String.mk (s.data.map Char.toLower)

/-- The VALID_EVENTS set of the source. -/
def VALID_EVENTS : List String :=
  ["blink", "blinks", "fixation", "fixations", "saccade", "saccades",
   "event", "events"]

/-- Row count of an event table (all columns share it in a well-formed
frame). -/
def eventNumRows (t : List Column) : ℕ :=
  match t with
  | [] => 0
  | c :: _ => c.values.length

/-- pandas column assignment `data[nm] = vs`: overwrite the column in
place when present, append it otherwise. -/
def setCol (t : List Column) (nm : String) (d : Dtype) (vs : List Val) :
    List Column :=
  if t.any (fun c => c.name == nm) then
    t.map (fun c => if c.name == nm then ⟨nm, d, vs⟩ else c)
  else t ++ [⟨nm, d, vs⟩]

/-- pandas DataFrame.rename of a single column name. -/
def renameCol (t : List Column) (oldN newN : String) : List Column :=
  t.map (fun c => if c.name == oldN then { c with name := newN } else c)

/-- Lookup of a column by name. -/
def findCol (t : List Column) (nm : String) : Option Column :=
  t.find? (fun c => c.name == nm)

/-- pd.concat([a, b], ignore_index=True): union of the column sets, rows
of b appended after rows of a, absent cells filled with the missing
marker.  (The dtype reported for a shared column is the first frame's;
pandas dtype unification on concat is not needed by any claim.) -/
def pdConcat (a b : List Column) : List Column :=
  let na := eventNumRows a
  let nb := eventNumRows b
  let fromA := a.map (fun c =>
    match findCol b c.name with
    | some cb => { c with values := c.values ++ cb.values }
    | none => { c with values := c.values ++ List.replicate nb .missing })
  let newNames := (b.map (fun c => c.name)).filter
    (fun nm => ¬ a.any (fun c => c.name == nm))
  fromA ++ newNames.filterMap (fun nm =>
    (findCol b nm).map (fun cb =>
      { name := nm, dtype := cb.dtype,
        values := List.replicate na .missing ++ cb.values }))

/-- Ordering key used by sort_values("start timestamp [ns]"): numeric
values ascending, missing values last (na_position="last"). -/
def valKeyLE (a b : Val) : Bool :=
  match a.toQ, b.toQ with
  | some x, some y => decide (x ≤ y)
  | some _, none => true
  | none, some _ => false
  | none, none => true

/-- DataFrame.sort_values("start timestamp [ns]") followed by
reset_index(drop=True): permute the rows so the start timestamps are
ascending.  The model permutes with a stable insertion sort of the row
indices, but the source uses the pandas default kind "quicksort", whose
order among equal keys is unspecified; no theorem below relies on the
tie order. -/
def sortByStart (t : List Column) : List Column :=
  let keys : List Val :=
    match findCol t "start timestamp [ns]" with
    | some c => c.values
    | none => List.replicate (eventNumRows t) .missing
  let idx := (List.range keys.length).insertionSort
    (fun i j => valKeyLE (keys.getD i .missing) (keys.getD j .missing) = true)
  t.map (fun c => { c with values := idx.map (fun i => c.values.getD i .missing) })

/-- One non-events kind of the `concat_events` body: check availability,
assign the type discriminator column on the recording's own table (the
column assignment mutates the stored frame; the model threads the
updated recording state), and append the rows. -/
def doKind (cur : List Column × EventRec) (present : Bool)
    (get : EventRec → Option (List Column))
    (set : EventRec → List Column → EventRec) (tag : String) :
    Except Err (List Column × EventRec) :=
  if present then
    match get cur.2 with
    | none => .error .missingStream
    | some tbl =>
      let tbl2 := setCol tbl "type" .string
        (List.replicate (eventNumRows tbl) (.str tag))
      .ok (pdConcat cur.1 tbl2, set cur.2 tbl2)
  else .ok cur

/-- The events kind of the `concat_events` body: the in-place renames of
the name/type/timestamp columns and the type-column assignment all act
on the recording's stored events table. -/
def doEventsKind (cur : List Column × EventRec) (present : Bool) :
    Except Err (List Column × EventRec) :=
  if present then
    match cur.2.events with
    | none => .error .missingStream
    | some tbl =>
      let t1 := renameCol (renameCol tbl "name" "message name") "type" "message type"
      let t2 := setCol t1 "type" .string
        (List.replicate (eventNumRows tbl) (.str "event"))
      let t3 := renameCol t2 "timestamp [ns]" "start timestamp [ns]"
      .ok (pdConcat cur.1 t3, { cur.2 with events := some t3 })
  else .ok cur

/-- The empty initial frame of `concat_events` with its four declared
columns. -/
def initEventCols : List Column :=
  [⟨"type", .string, []⟩, ⟨"start timestamp [ns]", .int64, []⟩,
   ⟨"end timestamp [ns]", .int64, []⟩, ⟨"duration [ms]", .float64, []⟩]

/-- pyneon.preprocess.concat_events(rec, event_names) over an explicit
name list ("all" expands to such a list upstream).  Requires at least
two kinds, lowercases and validates the names, appends blinks,
fixations, saccades and events in that fixed order (tagging each source
table in place), sorts by start timestamp and reassigns the row index.
The result is the concatenated frame together with the recording state
after the in-place column assignments and renames. -/
def concatEvents (rec : EventRec) (names : List String) :
    Except Err (List Column × EventRec) :=
  if names.length ≤ 1 then .error .invalidInput
  else
    let ns := names.map pyLower
    if ¬ ns.all (fun n => VALID_EVENTS.contains n) then .error .invalidInput
    else
      match doKind (initEventCols, rec)
          (ns.contains "blinks" || ns.contains "blink")
          (fun r => r.blinks) (fun r t => { r with blinks := some t })
          "blink" with
      | .error e => .error e
      | .ok s1 =>
        match doKind s1 (ns.contains "fixations" || ns.contains "fixation")
            (fun r => r.fixations) (fun r t => { r with fixations := some t })
            "fixation" with
        | .error e => .error e
        | .ok s2 =>
          match doKind s2 (ns.contains "saccades" || ns.contains "saccade")
              (fun r => r.saccades) (fun r t => { r with saccades := some t })
              "saccade" with
          | .error e => .error e
          | .ok s3 =>
            match doEventsKind s3
                (ns.contains "events" || ns.contains "event") with
            | .error e => .error e
            | .ok s4 => .ok (sortByStart s4.1, s4.2)

/-- The timeline step as the specification words it: round(1e9 /
target_frequency) nanoseconds (stated for comparison with the step the
code computes, `stepOf`). -/
def claimStep (streams : List StreamObj) (policy : FreqPolicy) : ℤ :=
  round ((10 ^ 9 : ℚ) / sfOf streams policy)

/-- The output row count as the specification words it:
ceil((min(last_ts) - max(first_ts)) / step) with the rounded step. -/
def claimRowCount (streams : List StreamObj) (policy : FreqPolicy) : ℕ :=
  (⌈((endOf streams - startOf streams : ℤ) : ℚ) /
      (claimStep streams policy : ℚ)⌉).toNat

/-! Concrete instances used by the witnesses and counterexamples below.
The stream frequencies 6e7 and 8e7 resolve ("min") to 6e7 Hz, whose step
1e9 / 6e7 = 50/3 is fractional: the code truncates it to 16 while the
specification rounds it to 17. -/

/-- A stream with fractional nanosecond period (sf = 6e7 Hz). -/
def streamA : StreamObj := ⟨60000000, 0, 33, ⟨[0, 33], none, []⟩⟩

/-- A second stream overlapping streamA, with a higher frequency. -/
def streamB : StreamObj := ⟨80000000, 0, 33, ⟨[0, 33], none, []⟩⟩

/-- Two overlapping streams whose resolved minimum frequency is 6e7 Hz. -/
def exStreams : List StreamObj := [streamA, streamB]

/-- The concatenated table of exStreams under the "min" policy. -/
def exConcatOut : Table := ⟨[0, 16, 32], some (timeOf [0, 16, 32]), []⟩

/-- A stream ending at t = 10. -/
def streamC : StreamObj := ⟨10, 0, 10, ⟨[0, 10], none, []⟩⟩

/-- A stream starting at t = 20: no overlap with streamC. -/
def streamD : StreamObj := ⟨10, 20, 30, ⟨[20, 30], none, []⟩⟩

/-- Two streams with disjoint time spans. -/
def exStreamsNoOverlap : List StreamObj := [streamC, streamD]

/-- A stream ending at t = 200. -/
def streamE : StreamObj := ⟨5, 100, 200, ⟨[100, 200], none, []⟩⟩

/-- A stream starting at t = 300: no overlap with streamE. -/
def streamF : StreamObj := ⟨5, 300, 400, ⟨[300, 400], none, []⟩⟩

/-- A second pair of streams with disjoint time spans. -/
def exStreamsNoOverlap2 : List StreamObj := [streamE, streamF]

/-- A source table with one integer column. -/
def tblInt : Table := ⟨[0, 10], none, [⟨"x", .int64, [.num 1, .num 2]⟩]⟩

/-- interpolate [5] tblInt: one row, nearest neighbour picks the lower
sample at the exact midpoint. -/
def outInt : Table :=
  ⟨[5], some (timeOf [5]),
   tblInt.cols.map (interpCol .linear .nearest tblInt.ts [5])⟩

/-- A source table with one float column, covering [0, 10]. -/
def tblFloat : Table :=
  ⟨[0, 10], none, [⟨"x", .float64, [.num 1, .num 2]⟩]⟩

/-- A valid identity-test table: strictly increasing timestamps, a
consistent relative-time column, a float and an integer column with no
missing values. -/
def tblId : Table :=
  ⟨[0, 10], some (timeOf [0, 10]),
   [⟨"x", .float64, [.num 1, .num 2]⟩, ⟨"k", .int64, [.num 3, .num 7]⟩]⟩

/-- A valid table with duplicated timestamps (non-decreasing passes the
check of `_check_data`); its distinct timestamps are just [0]. -/
def tblDup : Table := ⟨[0, 0], some (timeOf [0, 0]), []⟩

/-- A source table with mean timestamp spacing 10 and no value columns. -/
def tblSpacing : Table := ⟨[0, 10, 20], none, []⟩

/-- A source table with an integer column and spacing 10, for the
window-average dtype witness. -/
def tblC10 : Table :=
  ⟨[0, 10, 20], none, [⟨"y", .int64, [.num 1, .num 3, .num 5]⟩]⟩

/-- window_average [0, 20] of tblC10: a float column of window means. -/
def outC10 : Table :=
  ⟨[0, 20], some (timeOf [0, 20]),
   [⟨"y", .float64,
     [0, 20].map (winMean [0, 10, 20] [.num 1, .num 3, .num 5] 20)⟩]⟩

/-- window_average [100, 200] of tblFloat: every window is empty. -/
def outEmptyWin : Table :=
  ⟨[100, 200], some (timeOf [100, 200]),
   [⟨"x", .float64, [.missing, .missing]⟩]⟩

/-- A recording with blink and fixation event tables. -/
def exRec : EventRec :=
  ⟨some [⟨"start timestamp [ns]", .int64, [.num 5]⟩],
   some [⟨"start timestamp [ns]", .int64, [.num 3]⟩], none, none⟩

section Lemmas

theorem arangeAux_eq_nil (n : ℕ) (start stop : ℤ) (step : ℕ)
    (h : stop ≤ start) : arangeAux n start stop step = [] := by
  cases n with
  | zero => rfl
  | succ n => simp [arangeAux, not_lt.mpr h]

theorem ceilDiv_step (s step : ℕ) (hstep : 0 < step) (hs : 0 < s) :
    (s + step - 1) / step = (s - step + step - 1) / step + 1 := by
  rcases le_or_lt s step with h | h
  · have h1 : s - step = 0 := by omega
    have h2 : (0 + step - 1) / step = 0 := Nat.div_eq_of_lt (by omega)
    have h3 : (s + step - 1) / step = 1 :=
      Nat.div_eq_of_lt_le (by omega) (by omega)
    rw [h1, h2, h3]
  · have h1 : s - step + step - 1 = s - 1 := by omega
    have h2 : s + step - 1 = s - 1 + step := by omega
    rw [h1, h2, Nat.add_div_right _ hstep]

theorem arangeAux_length (step : ℕ) (hstep : 0 < step) :
    ∀ (n : ℕ) (start stop : ℤ), (stop - start).toNat ≤ n →
      (arangeAux n start stop step).length
        = ((stop - start).toNat + step - 1) / step := by
  intro n
  induction n with
  | zero =>
    intro start stop h
    rw [arangeAux_eq_nil _ _ _ _ (by omega)]
    have h3 : (stop - start).toNat = 0 := by omega
    have h4 : (0 + step - 1) / step = 0 := Nat.div_eq_of_lt (by omega)
    rw [h3, h4]
    rfl
  | succ n ih =>
    intro start stop h
    by_cases hlt : start < stop
    · rw [arangeAux]
      simp only [if_pos hlt, List.length_cons]
      rw [ih (start + step) stop (by omega)]
      have hs : 0 < (stop - start).toNat := by omega
      have he : (stop - (start + step)).toNat = (stop - start).toNat - step := by
        omega
      rw [he, ceilDiv_step _ _ hstep hs]
    · rw [arangeAux]
      simp only [if_neg hlt, List.length_nil]
      have h3 : (stop - start).toNat = 0 := by omega
      have h4 : (0 + step - 1) / step = 0 := Nat.div_eq_of_lt (by omega)
      rw [h3, h4]

theorem arange_length (start stop : ℤ) (step : ℕ) (hstep : 0 < step) :
    (arange start stop step).length
      = ((stop - start).toNat + step - 1) / step :=
  arangeAux_length step hstep _ start stop le_rfl

theorem arangeAux_get (step : ℕ) :
    ∀ (n : ℕ) (start stop : ℤ) (i : ℕ)
      (hi : i < (arangeAux n start stop step).length),
      (arangeAux n start stop step).get ⟨i, hi⟩ = start + i * step := by
  intro n
  induction n with
  | zero => intro start stop i hi; simp [arangeAux] at hi
  | succ n ih =>
    intro start stop i hi
    by_cases hlt : start < stop
    · cases i with
      | zero => simp [arangeAux, if_pos hlt]
      | succ j =>
        have hj : j < (arangeAux n (start + step) stop step).length := by
          have := hi
          simp only [arangeAux, if_pos hlt, List.length_cons] at this
          omega
        have hstep2 : (arangeAux (n + 1) start stop step).get ⟨j + 1, hi⟩
            = (arangeAux n (start + step) stop step).get ⟨j, hj⟩ := by
          simp [arangeAux, if_pos hlt]
        rw [hstep2, ih (start + step) stop j hj]
        push_cast
        ring
    · exfalso
      simp [arangeAux, if_neg hlt] at hi

theorem arange_get (start stop : ℤ) (step : ℕ) (i : ℕ)
    (hi : i < (arange start stop step).length) :
    (arange start stop step).get ⟨i, hi⟩ = start + i * step :=
  arangeAux_get step _ start stop i hi

theorem arangeAux_mem (step : ℕ) :
    ∀ (n : ℕ) (start stop : ℤ) (t : ℤ),
      t ∈ arangeAux n start stop step → start ≤ t ∧ t < stop := by
  intro n
  induction n with
  | zero => intro start stop t ht; simp [arangeAux] at ht
  | succ n ih =>
    intro start stop t ht
    by_cases hlt : start < stop
    · simp only [arangeAux, if_pos hlt, List.mem_cons] at ht
      rcases ht with rfl | ht
      · exact ⟨le_rfl, hlt⟩
      · have := ih (start + step) stop t ht
        constructor
        · omega
        · exact this.2
    · simp [arangeAux, if_neg hlt] at ht

theorem arange_mem (start stop : ℤ) (step : ℕ) (t : ℤ)
    (ht : t ∈ arange start stop step) : start ≤ t ∧ t < stop :=
  arangeAux_mem step _ start stop t ht

theorem hasNegDiff_eq_false_iff (l : List ℤ) :
    hasNegDiff l = false ↔ List.Chain' (· ≤ ·) l := by
  induction l with
  | nil => simp [hasNegDiff, diffs]
  | cons a l ih =>
    cases l with
    | nil => simp [hasNegDiff, diffs]
    | cons b t =>
      have hd : diffs (a :: b :: t) = (b - a) :: diffs (b :: t) := rfl
      rw [List.chain'_cons, ← ih]
      simp only [hasNegDiff, hd, List.any_cons, Bool.or_eq_false_iff,
        decide_eq_false_iff_not, not_lt]
      constructor
      · rintro ⟨h1, h2⟩; exact ⟨by omega, h2⟩
      · rintro ⟨h1, h2⟩; exact ⟨by omega, h2⟩

theorem chainLe_head_le {α : Type} [LinearOrder α] {a : α} {l : List α}
    (h : List.Chain' (· ≤ ·) (a :: l)) : ∀ x ∈ a :: l, a ≤ x := by
  induction l generalizing a with
  | nil => intro x hx; simp at hx; subst hx; exact le_rfl
  | cons b t ih =>
    intro x hx
    rw [List.chain'_cons] at h
    rcases List.mem_cons.mp hx with rfl | hx
    · exact le_rfl
    · exact le_trans h.1 (ih h.2 x hx)

theorem chainLt_head_lt {α : Type} [LinearOrder α] {a : α} {l : List α}
    (h : List.Chain' (· < ·) (a :: l)) : ∀ x ∈ l, a < x := by
  induction l generalizing a with
  | nil => intro x hx; simp at hx
  | cons b t ih =>
    intro x hx
    rw [List.chain'_cons] at h
    rcases List.mem_cons.mp hx with rfl | hx
    · exact h.1
    · exact lt_trans h.1 (ih h.2 x hx)

theorem chainLe_le_lastQ {l : List ℚ} (h : List.Chain' (· ≤ ·) l) :
    ∀ x ∈ l, x ≤ lastQ l := by
  induction l with
  | nil => intro x hx; simp at hx
  | cons a l ih =>
    cases l with
    | nil =>
      intro x hx; simp at hx; subst hx; simp [lastQ]
    | cons b t =>
      intro x hx
      rw [List.chain'_cons] at h
      have hlast : lastQ (a :: b :: t) = lastQ (b :: t) := by
        simp [lastQ, List.getLast?_cons_cons]
      rcases List.mem_cons.mp hx with rfl | hx
      · rw [hlast]
        exact le_trans h.1 (ih h.2 b (List.mem_cons_self b t))
      · rw [hlast]
        exact ih h.2 x hx

theorem segEval_left {a b : ℚ} (x1 x2 : ℚ) :
    segEval x1 x2 (.num a) (.num b) x1 = .num a := by
  simp [segEval, Val.toQ]

theorem segEval_right {a b : ℚ} (x1 x2 : ℚ) (hne : x1 < x2) :
    segEval x1 x2 (.num a) (.num b) x2 = .num b := by
  have hd : x2 - x1 ≠ 0 := sub_ne_zero.mpr (ne_of_gt hne)
  have hm : (b - a) * (x2 - x1) / (x2 - x1) = b - a :=
    mul_div_cancel_right₀ _ hd
  simp only [segEval, Val.toQ, hm]
  norm_num

theorem linearCore_get :
    ∀ (xs : List ℚ) (ys : List Val) (i : ℕ) (hi : i < xs.length)
      (hlen : ys.length = xs.length)
      (_ : List.Chain' (· < ·) xs)
      (_ : ∀ v ∈ ys, ∃ q, v = Val.num q),
      linearCore xs ys (xs.get ⟨i, hi⟩) = ys.get ⟨i, by omega⟩ := by
  intro xs
  induction xs with
  | nil => intro ys i hi; simp at hi
  | cons x1 rest ih =>
    intro ys i hi hlen hchain hnum
    cases rest with
    | nil =>
      match ys, hlen with
      | [y], _ =>
        have hz : i = 0 := by simp at hi; omega
        subst hz
        rfl
    | cons x2 xs2 =>
      match ys, hlen with
      | y1 :: y2 :: ys2, hlen =>
        have hx12 : x1 < x2 := (List.chain'_cons.mp hchain).1
        obtain ⟨a, ha⟩ := hnum y1 (by simp)
        obtain ⟨b, hb⟩ := hnum y2 (by simp)
        cases i with
        | zero =>
          simp only [List.get]
          show linearCore (x1 :: x2 :: xs2) (y1 :: y2 :: ys2) x1 = y1
          rw [linearCore, if_pos (le_of_lt hx12), ha, hb, segEval_left]
        | succ j =>
          have hj : j < (x2 :: xs2).length := by
            simp at hi ⊢; omega
          have hget : (x1 :: x2 :: xs2).get ⟨j + 1, hi⟩
              = (x2 :: xs2).get ⟨j, hj⟩ := rfl
          rw [hget]
          cases j with
          | zero =>
            show linearCore (x1 :: x2 :: xs2) (y1 :: y2 :: ys2) x2
                = (y2 :: ys2).get ⟨0, by simp⟩
            rw [linearCore, if_pos le_rfl, ha, hb, segEval_right _ _ hx12]
            rfl
          | succ k =>
            have hk : k < xs2.length := by simp at hj ⊢; omega
            have ht : (x2 :: xs2).get ⟨k + 1, hj⟩ = xs2.get ⟨k, hk⟩ := rfl
            have hmem : xs2.get ⟨k, hk⟩ ∈ xs2 := List.get_mem xs2 k hk
            have hgt : x2 < (x2 :: xs2).get ⟨k + 1, hj⟩ := by
              rw [ht]
              exact chainLt_head_lt (List.chain'_cons.mp hchain).2 _ hmem
            have hgt1 : x1 < (x2 :: xs2).get ⟨k + 1, hj⟩ := lt_trans hx12 hgt
            rw [linearCore, if_neg (not_le.mpr hgt)]
            have := ih (y2 :: ys2) (k + 1) hj (by simp at hlen ⊢; omega)
              (List.chain'_cons.mp hchain).2
              (fun v hv => hnum v (List.mem_cons_of_mem _ hv))
            rw [this]
            rfl

theorem nearestCore_get :
    ∀ (xs : List ℚ) (ys : List Val) (i : ℕ) (hi : i < xs.length)
      (hlen : ys.length = xs.length)
      (_ : List.Chain' (· < ·) xs),
      nearestCore xs ys (xs.get ⟨i, hi⟩) = ys.get ⟨i, by omega⟩ := by
  intro xs
  induction xs with
  | nil => intro ys i hi; simp at hi
  | cons x1 rest ih =>
    intro ys i hi hlen hchain
    cases rest with
    | nil =>
      match ys, hlen with
      | [y], _ =>
        have hz : i = 0 := by simp at hi; omega
        subst hz
        rfl
    | cons x2 xs2 =>
      match ys, hlen with
      | y1 :: y2 :: ys2, hlen =>
        have hx12 : x1 < x2 := (List.chain'_cons.mp hchain).1
        cases i with
        | zero =>
          show nearestCore (x1 :: x2 :: xs2) (y1 :: y2 :: ys2) x1 = y1
          rw [nearestCore, if_pos (by linarith)]
        | succ j =>
          have hj : j < (x2 :: xs2).length := by simp at hi ⊢; omega
          have hget : (x1 :: x2 :: xs2).get ⟨j + 1, hi⟩
              = (x2 :: xs2).get ⟨j, hj⟩ := rfl
          rw [hget]
          have hx2le : x2 ≤ (x2 :: xs2).get ⟨j, hj⟩ := by
            apply chainLe_head_le
              ((List.chain'_cons.mp hchain).2.imp fun _ _ h => le_of_lt h)
            exact List.get_mem _ j hj
          have hmid : ¬ (x2 :: xs2).get ⟨j, hj⟩ ≤ (x1 + x2) / 2 := by
            push_neg
            have : (x1 + x2) / 2 < x2 := by linarith
            linarith
          rw [nearestCore, if_neg hmid]
          have := ih (y2 :: ys2) j hj (by simp at hlen ⊢; omega)
            (List.chain'_cons.mp hchain).2
          rw [this]
          rfl

theorem linearAt_get (xs : List ℚ) (ys : List Val) (i : ℕ)
    (hi : i < xs.length) (hlen : ys.length = xs.length)
    (hchain : List.Chain' (· < ·) xs)
    (hnum : ∀ v ∈ ys, ∃ q, v = Val.num q) :
    linearAt xs ys (xs.get ⟨i, hi⟩) = ys.get ⟨i, by omega⟩ := by
  match xs, hi with
  | x :: rest, hi =>
    have hle : List.Chain' (· ≤ ·) (x :: rest) :=
      hchain.imp fun _ _ h => le_of_lt h
    have hmem : (x :: rest).get ⟨i, hi⟩ ∈ x :: rest := List.get_mem _ i hi
    have h1 : ¬ (x :: rest).get ⟨i, hi⟩ < x :=
      not_lt.mpr (chainLe_head_le hle _ hmem)
    have h2 : ¬ lastQ (x :: rest) < (x :: rest).get ⟨i, hi⟩ :=
      not_lt.mpr (chainLe_le_lastQ hle _ hmem)
    rw [linearAt, if_neg (by push_neg; exact ⟨not_lt.mp h1, not_lt.mp h2⟩)]
    exact linearCore_get _ ys i hi hlen hchain hnum

theorem nearestAt_get (xs : List ℚ) (ys : List Val) (i : ℕ)
    (hi : i < xs.length) (hlen : ys.length = xs.length)
    (hchain : List.Chain' (· < ·) xs) :
    nearestAt xs ys (xs.get ⟨i, hi⟩) = ys.get ⟨i, by omega⟩ := by
  match xs, hi with
  | x :: rest, hi =>
    have hle : List.Chain' (· ≤ ·) (x :: rest) :=
      hchain.imp fun _ _ h => le_of_lt h
    have hmem : (x :: rest).get ⟨i, hi⟩ ∈ x :: rest := List.get_mem _ i hi
    have h1 : ¬ (x :: rest).get ⟨i, hi⟩ < x :=
      not_lt.mpr (chainLe_head_le hle _ hmem)
    have h2 : ¬ lastQ (x :: rest) < (x :: rest).get ⟨i, hi⟩ :=
      not_lt.mpr (chainLe_le_lastQ hle _ hmem)
    rw [nearestAt, if_neg (by push_neg; exact ⟨not_lt.mp h1, not_lt.mp h2⟩)]
    exact nearestCore_get _ ys i hi hlen hchain

theorem linearAt_of_out (x : ℚ) (rest : List ℚ) (ys : List Val) (t : ℚ)
    (h : t < x ∨ lastQ (x :: rest) < t) :
    linearAt (x :: rest) ys t = .missing := by
  rw [linearAt, if_pos h]

theorem nearestAt_of_out (x : ℚ) (rest : List ℚ) (ys : List Val) (t : ℚ)
    (h : t < x ∨ lastQ (x :: rest) < t) :
    nearestAt (x :: rest) ys t = .missing := by
  rw [nearestAt, if_pos h]

theorem astypeVal_missing (d : Dtype) : astypeVal d .missing = .missing := by
  cases d <;> rfl

theorem mapME_ok_forall2 {α β : Type} {f : α → Except Err β} :
    ∀ {l : List α} {l2 : List β}, mapME f l = .ok l2 →
      List.Forall₂ (fun a b => f a = .ok b) l l2 := by
  intro l
  induction l with
  | nil =>
    intro l2 h
    rw [mapME] at h
    injection h with h2
    subst h2
    exact List.Forall₂.nil
  | cons a l ih =>
    intro l2 h
    rw [mapME] at h
    cases hfa : f a with
    | error e => rw [hfa] at h; exact absurd h (by simp)
    | ok b =>
      rw [hfa] at h
      cases hrec : mapME f l with
      | error e => rw [hrec] at h; exact absurd h (by simp)
      | ok l3 =>
        rw [hrec] at h
        injection h with h2
        subst h2
        exact List.Forall₂.cons hfa (ih hrec)

theorem forall2_mem_right {α β : Type} {R : α → β → Prop} :
    ∀ {l : List α} {l2 : List β}, List.Forall₂ R l l2 →
      ∀ b ∈ l2, ∃ a ∈ l, R a b := by
  intro l l2 h
  induction h with
  | nil => intro b hb; simp at hb
  | @cons a b l l2 hab _ ih =>
    intro c hc
    rcases List.mem_cons.mp hc with rfl | hc
    · exact ⟨a, List.mem_cons_self a l, hab⟩
    · obtain ⟨a2, ha2, hr⟩ := ih c hc
      exact ⟨a2, List.mem_cons_of_mem _ ha2, hr⟩

theorem forall2_map_eq {α β γ : Type} {R : α → β → Prop} (g : β → γ)
    (k : α → γ) (hg : ∀ a b, R a b → g b = k a) :
    ∀ {l : List α} {l2 : List β}, List.Forall₂ R l l2 →
      l2.map g = l.map k := by
  intro l l2 h
  induction h with
  | nil => rfl
  | cons hab _ ih => simp only [List.map_cons, ih, hg _ _ hab]

theorem mapME_ok_of_forall {α β : Type} {f : α → Except Err β} :
    ∀ {l : List α}, (∀ a ∈ l, ∃ b, f a = .ok b) →
      ∃ l2, mapME f l = .ok l2 := by
  intro l
  induction l with
  | nil => intro _; exact ⟨[], rfl⟩
  | cons a l ih =>
    intro h
    obtain ⟨b, hb⟩ := h a (List.mem_cons_self a l)
    obtain ⟨l2, hl2⟩ := ih (fun x hx => h x (List.mem_cons_of_mem _ hx))
    exact ⟨b :: l2, by rw [mapME, hb, hl2]⟩

theorem interpolate_ok {newTs : List ℤ} {data : Table}
    {fk otherK : InterpKind} {out : Table}
    (h : interpolate newTs data fk otherK = .ok out) :
    hasNegDiff data.ts = false ∧ npSort newTs ≠ [] ∧
      out = { ts := npSort newTs, time := some (timeOf (npSort newTs)),
              cols := data.cols.map
                (interpCol fk otherK data.ts (npSort newTs)) } := by
  unfold interpolate at h
  cases hm : hasNegDiff data.ts with
  | true => rw [hm] at h; simp at h
  | false =>
    rw [hm] at h
    simp only [Bool.false_eq_true, if_false] at h
    cases hs : npSort newTs with
    | nil => rw [hs] at h; simp at h
    | cons t0 rest =>
      rw [hs] at h
      injection h with h2
      exact ⟨rfl, by simp [hs], by rw [← h2]⟩

theorem windowAverage_ok {newTs : List ℤ} {data : Table} {ws : Option ℤ}
    {out : Table} (h : windowAverage newTs data ws = .ok out) :
    hasNegDiff data.ts = false ∧
    medLtMean (medianQ (diffs (npSort newTs)))
      (meanQ (diffs data.ts)) = false ∧
    ∃ w, resolvedW newTs ws = some w ∧ npSort newTs ≠ [] ∧
      ∃ cols, mapME (wavgCol data.ts (npSort newTs) w) data.cols
          = .ok cols ∧
        out = { ts := npSort newTs,
                time := some (timeOf (npSort newTs)), cols := cols } := by
  unfold windowAverage at h
  cases hm : hasNegDiff data.ts with
  | true => rw [hm] at h; simp at h
  | false =>
    rw [hm] at h
    simp only [Bool.false_eq_true, if_false] at h
    cases hpre : medLtMean (medianQ (diffs (npSort newTs)))
        (meanQ (diffs data.ts)) with
    | true => rw [hpre] at h; simp at h
    | false =>
      rw [hpre] at h
      simp only [Bool.false_eq_true, if_false] at h
      cases hw : resolvedW newTs ws with
      | none => rw [hw] at h; simp at h
      | some w =>
        rw [hw] at h
        dsimp only at h
        cases hs : npSort newTs with
        | nil => rw [hs] at h; simp at h
        | cons t0 rest =>
          rw [hs] at h
          dsimp only at h
          cases hmm : mapME (wavgCol data.ts (t0 :: rest) w) data.cols with
          | error e => rw [hmm] at h; simp at h
          | ok cols =>
            rw [hmm] at h
            injection h with h2
            exact ⟨rfl, rfl, w, rfl, by simp, cols, hmm, h2.symm⟩

theorem interpolate_dtype_map {newTs : List ℤ} {data : Table}
    {fk otherK : InterpKind} {out : Table}
    (h : interpolate newTs data fk otherK = .ok out) :
    out.cols.map (fun c => (c.name, c.dtype))
      = data.cols.map (fun c => (c.name, c.dtype)) := by
  obtain ⟨-, -, rfl⟩ := interpolate_ok h
  simp [interpCol, List.map_map, Function.comp]

theorem length_castQ (l : List ℤ) : (castQ l).length = l.length := by
  simp [castQ]

theorem get_castQ (l : List ℤ) (i : ℕ) (h : i < (castQ l).length) :
    (castQ l).get ⟨i, h⟩
      = ((l.get ⟨i, by simpa [castQ] using h⟩ : ℤ) : ℚ) := by
  simp [castQ]

theorem lastQ_castQ (l : List ℤ) :
    lastQ (castQ l) = ((lastTs l : ℤ) : ℚ) := by
  rw [lastQ, lastTs, castQ, List.getLast?_map]
  cases l.getLast? <;> simp

theorem map_id_of_mem {α : Type} {l : List α} {f : α → α}
    (h : ∀ x ∈ l, f x = x) : l.map f = l := by
  induction l with
  | nil => rfl
  | cons a l ih =>
    rw [List.map_cons, h a (List.mem_cons_self a l),
      ih fun x hx => h x (List.mem_cons_of_mem _ hx)]

theorem chainQ_of_chainZ {l : List ℤ} (h : List.Chain' (· < ·) l) :
    List.Chain' (· < ·) (castQ l) :=
  (List.chain'_map _).mpr (h.imp fun _ _ hab => by exact_mod_cast hab)

theorem toQ_ne_none_iff (v : Val) : v.toQ ≠ none ↔ ∃ q, v = .num q := by
  cases v <;> simp [Val.toQ]

theorem interpolate_eq_ok (newTs : List ℤ) (data : Table)
    (fk otherK : InterpKind) (t0 : ℤ) (rest : List ℤ)
    (hmono : hasNegDiff data.ts = false)
    (hsort : npSort newTs = t0 :: rest) :
    interpolate newTs data fk otherK
      = .ok { ts := t0 :: rest, time := some (timeOf (t0 :: rest)),
              cols := data.cols.map
                (interpCol fk otherK data.ts (t0 :: rest)) } := by
  unfold interpolate
  rw [hmono, hsort]
  rfl

theorem interpAt_node (k : InterpKind) (ts : List ℤ) (vs : List Val)
    (i : ℕ) (hi : i < ts.length)
    (hstrict : List.Chain' (· < ·) ts)
    (hlen : vs.length = ts.length)
    (hnum : k = .linear → ∀ v ∈ vs, ∃ q, v = Val.num q) :
    interpAt k ts vs (ts.get ⟨i, hi⟩) = vs.get ⟨i, by omega⟩ := by
  have hiq : i < (castQ ts).length := by rw [length_castQ]; exact hi
  have hcast : ((ts.get ⟨i, hi⟩ : ℤ) : ℚ) = (castQ ts).get ⟨i, hiq⟩ := by
    rw [get_castQ]
  have hlenq : vs.length = (castQ ts).length := by
    rw [length_castQ]; exact hlen
  have hchainq := chainQ_of_chainZ hstrict
  cases k with
  | linear =>
    rw [interpAt, hcast, linearAt_get _ vs i hiq hlenq hchainq (hnum rfl)]
  | nearest =>
    rw [interpAt, hcast, nearestAt_get _ vs i hiq hlenq hchainq]

theorem interpCol_node (ts : List ℤ) (c : Column)
    (hstrict : List.Chain' (· < ·) ts)
    (hlen : c.values.length = ts.length)
    (hfaith : ∀ v ∈ c.values, v ≠ .missing ∧ astypeVal c.dtype v = v ∧
      (c.dtype = .float64 → v.toQ ≠ none)) :
    interpCol .linear .nearest ts ts c = c := by
  obtain ⟨nm, d, vs⟩ := c
  simp only [interpCol]
  congr 1
  apply List.ext_get (by simpa using hlen.symm)
  intro i h1 h2
  rw [List.get_map]
  have hi : i < ts.length := by simpa using h1
  have hk : (if d = Dtype.float64 then InterpKind.linear else InterpKind.nearest)
        = .linear → ∀ v ∈ vs, ∃ q, v = Val.num q := by
    intro hifl v hv
    by_cases hd : d = Dtype.float64
    · exact (toQ_ne_none_iff v).mp ((hfaith v hv).2.2 hd)
    · rw [if_neg hd] at hifl
      exact absurd hifl (by simp)
  rw [interpAt_node _ ts vs i hi hstrict (by simpa using hlen) hk]
  exact (hfaith _ (List.get_mem vs i _)).2.1

theorem winMean_cond_iff (t w x : ℤ) :
    (2 * t - w ≤ 2 * x ∧ 2 * x ≤ 2 * t + w)
      ↔ ((t : ℚ) - (w : ℚ) / 2 ≤ (x : ℚ) ∧
          (x : ℚ) ≤ (t : ℚ) + (w : ℚ) / 2) := by
  constructor
  · rintro ⟨h1, h2⟩
    have h1q : ((2 * t - w : ℤ) : ℚ) ≤ ((2 * x : ℤ) : ℚ) := by exact_mod_cast h1
    have h2q : ((2 * x : ℤ) : ℚ) ≤ ((2 * t + w : ℤ) : ℚ) := by exact_mod_cast h2
    push_cast at h1q h2q
    constructor <;> linarith
  · rintro ⟨h1, h2⟩
    have h1q : ((2 * t - w : ℤ) : ℚ) ≤ ((2 * x : ℤ) : ℚ) := by
      push_cast
      linarith
    have h2q : ((2 * x : ℤ) : ℚ) ≤ ((2 * t + w : ℤ) : ℚ) := by
      push_cast
      linarith
    exact ⟨by exact_mod_cast h1q, by exact_mod_cast h2q⟩

theorem winMean_empty (xs : List ℤ) (ys : List Val) (w t : ℤ)
    (h : ∀ x ∈ xs, ¬((t : ℚ) - (w : ℚ) / 2 ≤ (x : ℚ) ∧
      (x : ℚ) ≤ (t : ℚ) + (w : ℚ) / 2)) :
    winMean xs ys w t = .missing := by
  have hsel : (xs.zip ys).filter
      (fun p => 2 * t - w ≤ 2 * p.1 ∧ 2 * p.1 ≤ 2 * t + w) = [] := by
    rw [List.filter_eq_nil_iff]
    intro p hp
    have hx := (List.of_mem_zip hp).1
    simp only [decide_eq_true_eq]
    rw [winMean_cond_iff]
    exact h _ hx
  unfold winMean
  rw [hsel]

theorem wavgCol_ok {xs newTs : List ℤ} {w : ℤ} {c col : Column}
    (h : wavgCol xs newTs w c = .ok col) :
    col.name = c.name ∧ col.dtype = .float64 ∧
      col.values = newTs.map (winMean xs c.values w) := by
  unfold wavgCol at h
  by_cases hd : c.dtype = .categorical ∨ c.dtype = .string
  · rw [if_pos hd] at h
    simp at h
  · rw [if_neg hd] at h
    injection h with h2
    rw [← h2]
    exact ⟨rfl, rfl, rfl⟩

theorem wavgCol_ok_of_numeric (xs newTs : List ℤ) (w : ℤ) (c : Column)
    (h : c.dtype = .float64 ∨ c.dtype = .int64) :
    wavgCol xs newTs w c
      = .ok ⟨c.name, .float64, newTs.map (winMean xs c.values w)⟩ := by
  unfold wavgCol
  rcases h with h | h <;> rw [if_neg (by simp [h])]

theorem windowAverage_eq_ok (newTs : List ℤ) (data : Table)
    (ws : Option ℤ) (w t0 : ℤ) (rest : List ℤ) (cols : List Column)
    (hmono : hasNegDiff data.ts = false)
    (hpre : medLtMean (medianQ (diffs (npSort newTs)))
      (meanQ (diffs data.ts)) = false)
    (hw : resolvedW newTs ws = some w)
    (hsort : npSort newTs = t0 :: rest)
    (hcols : mapME (wavgCol data.ts (t0 :: rest) w) data.cols = .ok cols) :
    windowAverage newTs data ws
      = .ok { ts := t0 :: rest, time := some (timeOf (t0 :: rest)),
              cols := cols } := by
  unfold windowAverage
  rw [hmono]
  dsimp only
  rw [hpre, hw, hsort]
  dsimp only
  rw [hcols]
  rfl

theorem windowAverage_eq_err (newTs : List ℤ) (data : Table)
    (ws : Option ℤ)
    (hmono : hasNegDiff data.ts = false)
    (hpre : medLtMean (medianQ (diffs (npSort newTs)))
      (meanQ (diffs data.ts)) = true) :
    windowAverage newTs data ws = .error .lowerFreqRequired := by
  unfold windowAverage
  rw [hmono]
  dsimp only
  rw [hpre]
  rfl

theorem medianQ_some_len2 {l : List ℤ} {m : ℚ}
    (h : medianQ (diffs (npSort l)) = some m) : 2 ≤ (npSort l).length := by
  cases hs : npSort l with
  | nil => rw [hs] at h; simp [diffs, medianQ, npSort] at h
  | cons a l2 =>
    cases l2 with
    | nil => rw [hs] at h; simp [diffs, medianQ, npSort] at h
    | cons b l3 => simp

theorem meanQ_pair (a b : ℤ) :
    meanQ [a, b] = some (((a : ℚ) + (b : ℚ)) / 2) := by
  simp [meanQ]

theorem meanQ_single (a : ℤ) : meanQ [a] = some ((a : ℤ) : ℚ) := by
  simp [meanQ]

theorem concatStreams_ok_ts {streams : List StreamObj}
    {policy : FreqPolicy} {fk otherK : InterpKind} {ip : Bool}
    {p : Table × List StreamObj}
    (h : concatStreams streams policy fk otherK ip = .ok p) :
    p.1.ts = arangeZ (startOf streams) (endOf streams)
        (stepOf streams policy) ∧
      ∃ pairs, mapME (fun s => streamInterpolate s p.1.ts fk otherK ip)
          streams = .ok pairs ∧
        p.2 = pairs.map (fun q => q.2) := by
  obtain ⟨out, streams2⟩ := p
  unfold concatStreams at h
  by_cases h1 : streams.length ≤ 1
  · rw [if_pos h1] at h
    simp at h
  · rw [if_neg h1] at h
    by_cases h2 : sfOf streams policy = 0
    · rw [if_pos h2] at h
      simp at h
    · rw [if_neg h2] at h
      by_cases h3 : stepOf streams policy = 0
      · rw [if_pos h3] at h
        simp at h
      · rw [if_neg h3] at h
        cases ha : arangeZ (startOf streams) (endOf streams)
            (stepOf streams policy) with
        | nil => rw [ha] at h; simp at h
        | cons t0 rest =>
          rw [ha] at h
          dsimp only at h
          cases hmm : mapME
              (fun s => streamInterpolate s (t0 :: rest) fk otherK ip)
              streams with
          | error e => rw [hmm] at h; simp at h
          | ok pairs =>
            rw [hmm] at h
            dsimp only at h
            cases hall : pairs.all (fun q => decide (q.1.ts = t0 :: rest)) with
            | false => rw [hall] at h; simp at h
            | true =>
              rw [hall] at h
              rw [if_pos rfl] at h
              injection h with h4
              rw [Prod.mk.injEq] at h4
              obtain ⟨h5, h6⟩ := h4
              subst h5
              subst h6
              exact ⟨rfl, pairs, hmm, rfl⟩

theorem sfOf_exStreams : sfOf exStreams FreqPolicy.minFreq = 60000000 := by
  show listMinQ [streamA.sf, streamB.sf] = 60000000
  simp only [listMinQ, streamA, streamB, List.foldl]
  rw [min_eq_left (by norm_num)]

theorem stepOf_exStreams : stepOf exStreams FreqPolicy.minFreq = 16 := by
  rw [stepOf, sfOf_exStreams]
  unfold qTrunc
  rw [if_neg (by norm_num)]
  norm_num

theorem sfOf_noOverlap : sfOf exStreamsNoOverlap FreqPolicy.minFreq = 10 := by
  show listMinQ [streamC.sf, streamD.sf] = 10
  simp only [listMinQ, streamC, streamD, List.foldl]
  rw [min_self]

theorem stepOf_noOverlap :
    stepOf exStreamsNoOverlap FreqPolicy.minFreq = 100000000 := by
  rw [stepOf, sfOf_noOverlap]
  unfold qTrunc
  rw [if_neg (by norm_num)]
  norm_num

theorem sfOf_noOverlap2 : sfOf exStreamsNoOverlap2 FreqPolicy.minFreq = 5 := by
  show listMinQ [streamE.sf, streamF.sf] = 5
  simp only [listMinQ, streamE, streamF, List.foldl]
  rw [min_self]

theorem stepOf_noOverlap2 :
    stepOf exStreamsNoOverlap2 FreqPolicy.minFreq = 200000000 := by
  rw [stepOf, sfOf_noOverlap2]
  unfold qTrunc
  rw [if_neg (by norm_num)]
  norm_num

theorem concat_exStreams_eval :
    concatStreams exStreams FreqPolicy.minFreq .linear .nearest false
      = .ok (exConcatOut, exStreams) := by
  unfold concatStreams
  rw [if_neg (by decide : ¬ exStreams.length ≤ 1)]
  rw [if_neg (show ¬ sfOf exStreams FreqPolicy.minFreq = 0 by
    rw [sfOf_exStreams]; norm_num)]
  rw [if_neg (show ¬ stepOf exStreams FreqPolicy.minFreq = 0 by
    rw [stepOf_exStreams]; decide)]
  rw [show arangeZ (startOf exStreams) (endOf exStreams)
      (stepOf exStreams FreqPolicy.minFreq) = [0, 16, 32] by
    rw [stepOf_exStreams]; decide]
  rfl

end Lemmas

section Claims

/-- C3: for every source table and every choice of new timestamps and
interpolation kinds, each value column of a table returned by
interpolate has exactly the name and dtype of the corresponding source
column (the astype cast back to the source dtype on line 111 of the
source). -/
theorem interpolate_preserves_dtypes (newTs : List ℤ) (data : Table)
    (fk otherK : InterpKind) (out : Table)
    (h : interpolate newTs data fk otherK = .ok out) :
    out.cols.map (fun c => (c.name, c.dtype))
      = data.cols.map (fun c => (c.name, c.dtype)) :=
  interpolate_dtype_map h

/-- Witness for C3 at a concrete integer column. -/
theorem interpolate_preserves_dtypes_witness :
    outInt.cols.map (fun c => (c.name, c.dtype)) = [("x", Dtype.int64)] :=
  (interpolate_preserves_dtypes [5] tblInt .linear .nearest outInt
      (interpolate_eq_ok [5] tblInt .linear .nearest 5 []
        (by decide) (by decide))).trans
    (by decide)

/-- C4: for a valid nonempty source table, a new timestamp strictly
outside the covered timestamp range produces the missing marker in every
value column of its output row, and interpolate returns a table rather
than raising. -/
theorem interpolate_out_of_range_missing (newTs : List ℤ) (data : Table)
    (fk otherK : InterpKind) (t : ℤ)
    (hmono : hasNegDiff data.ts = false)
    (hne : data.ts ≠ [])
    (ht : t ∈ newTs)
    (hout : t < firstTs data.ts ∨ lastTs data.ts < t) :
    ∃ out, interpolate newTs data fk otherK = .ok out ∧
      ∀ c ∈ out.cols, ∀ i, ∀ hi : i < out.ts.length,
        out.ts.get ⟨i, hi⟩ = t → c.values[i]? = some .missing := by
  have hts : t ∈ npSort newTs := by
    rw [npSort, List.mem_insertionSort]
    exact ht
  cases hsort : npSort newTs with
  | nil => rw [hsort] at hts; exact absurd hts (by simp)
  | cons t0 rest =>
    refine ⟨_, interpolate_eq_ok newTs data fk otherK t0 rest hmono hsort, ?_⟩
    intro c hc i hi hti
    obtain ⟨c0, hc0, rfl⟩ := List.mem_map.mp hc
    simp only [interpCol]
    rw [List.getElem?_map]
    have hts2 : (t0 :: rest)[i]? = some t := by
      rw [List.getElem?_eq_getElem hi]
      exact congrArg some hti
    rw [hts2]
    simp only [Option.map_some']
    congr 1
    have hatm : interpAt
        (if c0.dtype = Dtype.float64 then fk else otherK)
        data.ts c0.values t = .missing := by
      cases hdts : data.ts with
      | nil => exact absurd hdts hne
      | cons d0 drest =>
        have hcast : castQ (d0 :: drest) = (d0 : ℚ) :: castQ drest := rfl
        have hb : (t : ℚ) < (d0 : ℚ) ∨ lastQ (castQ (d0 :: drest)) < (t : ℚ) := by
          rcases hout with h | h
          · left
            rw [hdts] at h
            exact_mod_cast h
          · right
            rw [lastQ_castQ]
            rw [hdts] at h
            exact_mod_cast h
        cases (if c0.dtype = Dtype.float64 then fk else otherK) with
        | linear =>
          rw [interpAt, hcast, linearAt_of_out _ _ _ _ (by rw [← hcast]; exact hb)]
        | nearest =>
          rw [interpAt, hcast, nearestAt_of_out _ _ _ _ (by rw [← hcast]; exact hb)]
    rw [hatm, astypeVal_missing]

/-- Witness for C4: a single new timestamp above the covered range of a
float column yields a missing cell. -/
theorem interpolate_out_of_range_missing_witness :
    ∃ out, interpolate [25] tblFloat .linear .nearest = .ok out ∧
      ∀ c ∈ out.cols, ∀ i, ∀ hi : i < out.ts.length,
        out.ts.get ⟨i, hi⟩ = 25 → c.values[i]? = some .missing :=
  interpolate_out_of_range_missing [25] tblFloat .linear .nearest 25
    (by decide) (by decide) (by decide) (by decide)

/-- C5 (amended): for a nonempty source table with strictly increasing
timestamps, a relative-time column consistent with its own first
timestamp, full columns (one cell per row), no missing values, values
fixed by the cast to their own dtype, and numeric values in float
columns, interpolating at the table's own timestamps reproduces the
table exactly. -/
theorem interpolate_identity (data : Table)
    (hne : data.ts ≠ [])
    (hstrict : List.Chain' (· < ·) data.ts)
    (htime : data.time = some (timeOf data.ts))
    (hwf : ∀ c ∈ data.cols, c.values.length = data.ts.length)
    (hfaith : ∀ c ∈ data.cols, ∀ v ∈ c.values,
      v ≠ .missing ∧ astypeVal c.dtype v = v ∧
        (c.dtype = .float64 → v.toQ ≠ none)) :
    interpolate data.ts data .linear .nearest = .ok data := by
  obtain ⟨ts, tm, cols⟩ := data
  dsimp only at hne hstrict htime hwf hfaith ⊢
  subst htime
  have hchainle : List.Chain' (· ≤ ·) ts :=
    hstrict.imp fun _ _ h => le_of_lt h
  have hmono : hasNegDiff ts = false :=
    (hasNegDiff_eq_false_iff _).mpr hchainle
  have hsort : npSort ts = ts :=
    List.Sorted.insertionSort_eq (List.chain'_iff_pairwise.mp hchainle)
  have hcols : cols.map (interpCol .linear .nearest ts ts) = cols :=
    map_id_of_mem fun c hc => interpCol_node ts c hstrict (hwf c hc) (hfaith c hc)
  cases ts with
  | nil => exact absurd rfl hne
  | cons t0 rest =>
    rw [interpolate_eq_ok (t0 :: rest)
      ⟨t0 :: rest, some (timeOf (t0 :: rest)), cols⟩ .linear .nearest t0 rest
      hmono hsort]
    simp only [Except.ok.injEq, Table.mk.injEq, true_and]
    exact hcols

/-- Witness for C5 at a two-row table with a float and an integer
column. -/
theorem interpolate_identity_witness :
    interpolate tblId.ts tblId .linear .nearest = .ok tblId :=
  interpolate_identity tblId (by decide)
    (List.chain'_cons.mpr ⟨by norm_num, List.chain'_singleton _⟩)
    rfl (by decide) (by decide)

/-- Counterexample to C5 as stated: tblDup passes the validation of
`_check_data` (timestamps non-decreasing), its distinct timestamps are
[0], yet interpolate at [0] returns a one-row table, not tblDup. -/
theorem interpolate_identity_counterexample :
    hasNegDiff tblDup.ts = false ∧
      interpolate [0] tblDup .linear .nearest ≠ .ok tblDup := by
  constructor
  · decide
  · decide

/-- C6 (amended): for a valid source table with numeric value columns,
when both spacing statistics are defined (new timestamps and source rows
each at least two), window_average fails with the
lower-sampling-frequency ValueError exactly when the median spacing of
the new timestamps is smaller than the mean spacing of the source
timestamps, and succeeds otherwise; with a single new timestamp and no
window_size it instead fails in int(np.nan), outside the claimed
condition. -/
theorem window_average_precondition_iff (newTs : List ℤ) (data : Table)
    (ws : Option ℤ) (m u : ℚ)
    (hmono : hasNegDiff data.ts = false)
    (hnum : ∀ c ∈ data.cols, c.dtype = .float64 ∨ c.dtype = .int64)
    (hm : medianQ (diffs (npSort newTs)) = some m)
    (hu : meanQ (diffs data.ts) = some u) :
    (m < u → windowAverage newTs data ws = .error .lowerFreqRequired) ∧
      (¬ m < u → ∃ out, windowAverage newTs data ws = .ok out) := by
  constructor
  · intro hlt
    apply windowAverage_eq_err newTs data ws hmono
    rw [hm, hu]
    simp only [medLtMean, decide_eq_true_eq]
    exact hlt
  · intro hnlt
    have hlen := medianQ_some_len2 hm
    cases hsort : npSort newTs with
    | nil => rw [hsort] at hlen; simp at hlen
    | cons t0 rest =>
      have hw : ∃ w, resolvedW newTs ws = some w := by
        cases ws with
        | some w => exact ⟨w, rfl⟩
        | none =>
          refine ⟨qTrunc m, ?_⟩
          rw [resolvedW, hm]
          rfl
      obtain ⟨w, hw⟩ := hw
      obtain ⟨cols, hcols⟩ := mapME_ok_of_forall
        (f := wavgCol data.ts (t0 :: rest) w)
        (fun c hc => ⟨_, wavgCol_ok_of_numeric data.ts (t0 :: rest) w c
          (hnum c hc)⟩)
      refine ⟨_, windowAverage_eq_ok newTs data ws w t0 rest cols hmono ?_
        hw hsort hcols⟩
      rw [hm, hu]
      simp only [medLtMean, decide_eq_false_iff_not]
      exact hnlt

/-- Witness for C6: new spacing 5 against source spacing 10 violates the
downsampling precondition and raises. -/
theorem window_average_precondition_iff_witness :
    windowAverage [0, 5] tblSpacing none = .error .lowerFreqRequired := by
  have hu : meanQ (diffs tblSpacing.ts) = some 10 := by
    have h1 : diffs tblSpacing.ts = [10, 10] := by decide
    rw [h1, meanQ_pair]
    norm_num
  exact (window_average_precondition_iff [0, 5] tblSpacing none 5 10
    (by decide) (by decide) (by decide) hu).1 (by norm_num)

/-- Counterexample to C6 as stated: with a single new timestamp and no
window size, the median spacing is undefined (NaN), the claimed
condition does not hold (the NaN comparison is false), yet
window_average still fails, in int(np.nan). -/
theorem window_average_single_ts_counterexample :
    windowAverage [100] tblSpacing none = .error .nanToInt ∧
      medianQ (diffs (npSort [100])) = none := by
  constructor
  · have hmean : meanQ (diffs tblSpacing.ts) = some 10 := by
      have h1 : diffs tblSpacing.ts = [10, 10] := by decide
      rw [h1, meanQ_pair]
      norm_num
    have hmed : medianQ (diffs (npSort [100])) = none := by decide
    unfold windowAverage
    rw [show hasNegDiff tblSpacing.ts = false from by decide]
    dsimp only
    rw [hmed, hmean]
    rfl
  · decide

/-- C9: whenever window_average returns a table, a new timestamp whose
window [t - w/2, t + w/2] contains no source timestamps gets the
explicit missing marker (not zero) in every value column of its row. -/
theorem window_average_empty_window_missing (newTs : List ℤ)
    (data : Table) (ws : Option ℤ) (w : ℤ) (out : Table) (i : ℕ) (t : ℤ)
    (h : windowAverage newTs data ws = .ok out)
    (hw : resolvedW newTs ws = some w)
    (hi : i < out.ts.length)
    (ht : out.ts.get ⟨i, hi⟩ = t)
    (hempty : ∀ x ∈ data.ts, ¬((t : ℚ) - (w : ℚ) / 2 ≤ (x : ℚ) ∧
      (x : ℚ) ≤ (t : ℚ) + (w : ℚ) / 2)) :
    ∀ c ∈ out.cols, c.values[i]? = some Val.missing := by
  obtain ⟨hmono, hpre, w2, hw2, hne2, cols, hcols, hout⟩ := windowAverage_ok h
  have hww : w2 = w := by
    rw [hw] at hw2
    injection hw2 with h3
    exact h3.symm
  subst hout
  intro c hc
  obtain ⟨c0, hc0, hcol⟩ := forall2_mem_right (mapME_ok_forall2 hcols) c hc
  obtain ⟨-, -, hvals⟩ := wavgCol_ok hcol
  rw [hvals, List.getElem?_map]
  have hts : (npSort newTs)[i]? = some t := by
    rw [List.getElem?_eq_getElem hi]
    exact congrArg some ht
  rw [hts]
  simp only [Option.map_some']
  rw [hww, winMean_empty data.ts c0.values w t hempty]

/-- Witness for C9: both windows of width 100 around 100 and 200 miss
the source timestamps 0 and 10; the row at index 1 is missing. -/
theorem window_average_empty_window_missing_witness :
    (Column.mk "x" Dtype.float64 [Val.missing, Val.missing]).values[1]?
      = some Val.missing := by
  have hconc : windowAverage [100, 200] tblFloat none = .ok outEmptyWin := by
    have hmean : meanQ (diffs tblFloat.ts) = some 10 := by
      have h1 : diffs tblFloat.ts = [10] := by decide
      rw [h1, meanQ_single]
      norm_num
    have hmed : medianQ (diffs (npSort [100, 200])) = some 100 := by decide
    have hpre : medLtMean (medianQ (diffs (npSort [100, 200])))
        (meanQ (diffs tblFloat.ts)) = false := by
      rw [hmed, hmean]
      decide
    exact windowAverage_eq_ok [100, 200] tblFloat none 100 100 [200]
      [⟨"x", .float64, [.missing, .missing]⟩]
      (by decide) hpre (by decide) (by decide) (by decide)
  exact window_average_empty_window_missing [100, 200] tblFloat none 100
    outEmptyWin 1 200 hconc (by decide) (by decide) (by decide)
    (by intro x hx; fin_cases hx <;> norm_num)
    ⟨"x", .float64, [.missing, .missing]⟩ (by decide)

/-- C10: window_average does not preserve dtypes: every value column of
a returned table is a float column of window means, whatever the source
dtype; interpolate, in contrast, preserves every source dtype. -/
theorem window_average_float_dtype (newTs : List ℤ) (data : Table)
    (ws : Option ℤ) (out : Table)
    (h : windowAverage newTs data ws = .ok out) :
    out.cols.map (fun c => (c.name, c.dtype))
      = data.cols.map (fun c => (c.name, Dtype.float64)) ∧
      ∀ (newTs2 : List ℤ) (fk otherK : InterpKind) (out2 : Table),
        interpolate newTs2 data fk otherK = .ok out2 →
          out2.cols.map (fun c => (c.name, c.dtype))
            = data.cols.map (fun c => (c.name, c.dtype)) := by
  constructor
  · obtain ⟨-, -, w, -, -, cols, hcols, hout⟩ := windowAverage_ok h
    subst hout
    exact forall2_map_eq _ _ (fun a b hab => by
      obtain ⟨hn, hd, -⟩ := wavgCol_ok hab
      rw [hn, hd]) (mapME_ok_forall2 hcols)
  · intro newTs2 fk otherK out2 h2
    exact interpolate_dtype_map h2

/-- Witness for C10: the integer column of tblC10 comes back as float64
after window_average. -/
theorem window_average_float_dtype_witness :
    outC10.cols.map (fun c => (c.name, c.dtype)) = [("y", Dtype.float64)] := by
  have hconc : windowAverage [0, 20] tblC10 none = .ok outC10 := by
    have hmean : meanQ (diffs tblC10.ts) = some 10 := by
      have h1 : diffs tblC10.ts = [10, 10] := by decide
      rw [h1, meanQ_pair]
      norm_num
    have hmed : medianQ (diffs (npSort [0, 20])) = some 20 := by decide
    have hpre : medLtMean (medianQ (diffs (npSort [0, 20])))
        (meanQ (diffs tblC10.ts)) = false := by
      rw [hmed, hmean]
      decide
    exact windowAverage_eq_ok [0, 20] tblC10 none 20 0 [20]
      [⟨"y", .float64,
        [0, 20].map (winMean [0, 10, 20] [.num 1, .num 3, .num 5] 20)⟩]
      (by decide) hpre (by decide) (by decide) rfl
  exact ((window_average_float_dtype [0, 20] tblC10 none outC10 hconc).1).trans
    (by decide)

/-- C1 (amended): whenever concat_streams succeeds with a positive
resolved step, the common timeline is the evenly spaced sequence from
max(first_ts) (inclusive) to min(last_ts) (exclusive) with step
int(1e9 / sf) (the truncation the code computes, not the rounding the
specification words), and the row count is
ceil((min(last_ts) - max(first_ts)) / step) for that truncated step. -/
theorem concat_streams_timeline (streams : List StreamObj)
    (policy : FreqPolicy) (fk otherK : InterpKind) (ip : Bool)
    (p : Table × List StreamObj)
    (hstep : 0 < stepOf streams policy)
    (h : concatStreams streams policy fk otherK ip = .ok p) :
    p.1.ts.length
        = ((endOf streams - startOf streams).toNat
            + (stepOf streams policy).toNat - 1)
          / (stepOf streams policy).toNat ∧
      (∀ i, ∀ hi : i < p.1.ts.length,
        p.1.ts.get ⟨i, hi⟩
          = startOf streams + i * stepOf streams policy) ∧
      ∀ t ∈ p.1.ts, startOf streams ≤ t ∧ t < endOf streams := by
  obtain ⟨hts, -⟩ := concatStreams_ok_ts h
  have hsz : ((stepOf streams policy).toNat : ℤ) = stepOf streams policy := by
    omega
  have ha : arangeZ (startOf streams) (endOf streams) (stepOf streams policy)
      = arange (startOf streams) (endOf streams)
        (stepOf streams policy).toNat := by
    rw [arangeZ, if_pos hstep]
  rw [hts, ha]
  refine ⟨arange_length _ _ _ (by omega), ?_, ?_⟩
  · intro i hi
    rw [arange_get, hsz]
  · intro t ht2
    exact arange_mem _ _ _ t ht2

/-- Witness for C1 at the concrete pair of streams with fractional step
50/3 nanoseconds, truncated to 16. -/
theorem concat_streams_timeline_witness :
    exConcatOut.ts.length
      = ((endOf exStreams - startOf exStreams).toNat
          + (stepOf exStreams FreqPolicy.minFreq).toNat - 1)
        / (stepOf exStreams FreqPolicy.minFreq).toNat :=
  (concat_streams_timeline exStreams FreqPolicy.minFreq .linear .nearest
    false (exConcatOut, exStreams) (by rw [stepOf_exStreams]; decide)
    concat_exStreams_eval).1

/-- Counterexample to C1 as stated: at the minimum frequency 6e7 Hz the
code truncates the step 1e9/6e7 = 50/3 to 16 ns and produces the 3-row
timeline [0, 16, 32], while the specification's rounded step is 17 ns
and its row-count formula gives ceil(33 / 17) = 2. -/
theorem concat_streams_round_step_counterexample :
    (concatStreams exStreams FreqPolicy.minFreq .linear .nearest false).map
        (fun p => p.1.ts) = .ok [0, 16, 32] ∧
      stepOf exStreams FreqPolicy.minFreq = 16 ∧
      claimStep exStreams FreqPolicy.minFreq = 17 ∧
      claimRowCount exStreams FreqPolicy.minFreq = 2 := by
  refine ⟨by rw [concat_exStreams_eval]; rfl, stepOf_exStreams, ?_, ?_⟩
  · rw [claimStep, sfOf_exStreams, round_eq]
    norm_num
  · unfold claimRowCount claimStep
    rw [sfOf_exStreams, round_eq,
      show endOf exStreams = 33 from by decide,
      show startOf exStreams = 0 from by decide]
    norm_num
    rw [show (⌈(33 : ℚ) / 17⌉ : ℤ) = 2 from by
      rw [Int.ceil_eq_iff]
      norm_num]
    rfl

/-- C2 (amended): when the selected streams have no overlapping time
span (max first_ts is at or after min last_ts) and the resolved step is
positive, the generated timeline is empty and concat_streams raises an
IndexError at the relative-time computation new_ts[0] instead of
returning an empty table. -/
theorem concat_streams_no_overlap_raises (streams : List StreamObj)
    (policy : FreqPolicy) (fk otherK : InterpKind) (ip : Bool)
    (h2 : 2 ≤ streams.length)
    (hstep : 0 < stepOf streams policy)
    (hno : endOf streams ≤ startOf streams) :
    concatStreams streams policy fk otherK ip = .error .indexError := by
  have hsf0 : ¬ sfOf streams policy = 0 := by
    intro heq
    rw [stepOf, heq, div_zero] at hstep
    norm_num [qTrunc] at hstep
  have ha : arangeZ (startOf streams) (endOf streams)
      (stepOf streams policy) = [] := by
    rw [arangeZ, if_pos hstep, arange]
    have h0 : (endOf streams - startOf streams).toNat = 0 := by omega
    rw [h0]
    rfl
  unfold concatStreams
  rw [if_neg (by omega : ¬ streams.length ≤ 1), if_neg hsf0,
    if_neg (by omega : ¬ stepOf streams policy = 0), ha]

/-- Witness for C2: two streams whose spans [100, 200] and [300, 400]
do not overlap make concat_streams raise. -/
theorem concat_streams_no_overlap_raises_witness :
    concatStreams exStreamsNoOverlap2 FreqPolicy.minFreq .linear .nearest
      false = .error .indexError :=
  concat_streams_no_overlap_raises exStreamsNoOverlap2 FreqPolicy.minFreq
    .linear .nearest false (by decide) (by rw [stepOf_noOverlap2]; decide)
    (by decide)

/-- Counterexample to C2 as stated: for the disjoint spans [0, 10] and
[20, 30] the code does not return an empty zero-row table; it raises an
IndexError when new_ts[0] is taken on the empty timeline. -/
theorem concat_streams_no_overlap_counterexample :
    concatStreams exStreamsNoOverlap FreqPolicy.minFreq .linear .nearest
      false = .error .indexError := by
  unfold concatStreams
  rw [if_neg (by decide : ¬ exStreamsNoOverlap.length ≤ 1)]
  rw [if_neg (show ¬ sfOf exStreamsNoOverlap FreqPolicy.minFreq = 0 by
    rw [sfOf_noOverlap]; norm_num)]
  rw [if_neg (show ¬ stepOf exStreamsNoOverlap FreqPolicy.minFreq = 0 by
    rw [stepOf_noOverlap]; decide)]
  rw [show arangeZ (startOf exStreamsNoOverlap) (endOf exStreamsNoOverlap)
      (stepOf exStreamsNoOverlap FreqPolicy.minFreq) = [] by
    rw [stepOf_noOverlap]; decide]

/-- C7 (amended): crop, interpolate and window_average are embedded as
functions of their inputs and return without writing to them, and
concat_streams with the default inplace=False hands every stream object
back unchanged; concat_events, however, mutates the selected event
tables in place (see the counterexample). -/
theorem concat_streams_default_no_mutation (streams : List StreamObj)
    (policy : FreqPolicy) (fk otherK : InterpKind)
    (p : Table × List StreamObj)
    (h : concatStreams streams policy fk otherK false = .ok p) :
    p.2 = streams := by
  obtain ⟨-, pairs, hmm2, hsnd⟩ := concatStreams_ok_ts h
  rw [hsnd]
  have h3 := forall2_map_eq (fun q : Table × StreamObj => q.2)
    (fun s : StreamObj => s) (fun a b hab => by
      unfold streamInterpolate at hab
      cases hi2 : interpolate p.1.ts a.data fk otherK with
      | error e => rw [hi2] at hab; simp at hab
      | ok tb =>
        rw [hi2] at hab
        injection hab with h4
        rw [← h4]
        rfl) (mapME_ok_forall2 hmm2)
  rw [h3]
  simp

/-- Witness for C7: the default concat_streams run on exStreams returns
the stream objects unchanged. -/
theorem concat_streams_default_no_mutation_witness :
    ((exConcatOut, exStreams) : Table × List StreamObj).2 = exStreams :=
  concat_streams_default_no_mutation exStreams FreqPolicy.minFreq .linear
    .nearest (exConcatOut, exStreams) concat_exStreams_eval

/-- Counterexample to C7 as stated: concat_events writes the type
discriminator column into the recording's own blink and fixation tables
(the model threads the mutated recording state; the post-state differs
from the input recording). -/
theorem concat_events_mutates_counterexample :
    (concatEvents exRec ["blinks", "fixations"]).map
        (fun q => decide (q.2 = exRec)) = .ok false := by
  decide

end Claims

end PyNeon
